import Mathlib

/-!
# Verification of `ftable` (nilium/ftable, `ftable.go`)

`ftable` pipes stdin through Go's `text/tabwriter` and optionally overlays
Unicode box-drawing glyphs (`-box`, `-header`, `-rowlines`).

This file gives a shallow embedding at the level of Unicode code points
(`List Char`); Go's byte-level operations used here (`bytes.Replace` with a
one-byte pattern, `bytes.Split` on `"\n"`, `bytes.Runes`, tabwriter's
rune-counted cell widths) are all compatible with this view on valid UTF-8
input.

The alignment engine `text/tabwriter` is external to the repository; it is
embedded here from the Go standard library source (`text/tabwriter/tabwriter.go`):
cells split on `'\t'`/`'\v'`, lines on `'\n'`, formfeed `'\f'` sections
formatted independently, the `Debug` column marks and section breaks, and the
`AlignRight`/`DiscardEmptyColumns`/`TabIndent` flags. The `Escape` delimiter
(0xff) and the width-accounting effects of `FilterHTML`/`StripEscape` are not
modeled.
-/

namespace Ftable

/-! ## The `text/tabwriter` model -/

/-- Alignment-engine configuration: the arguments of `tabwriter.NewWriter`
(`minwidth`, `tabwidth`, `padding`, `padchar`, `flags`). `flags` is the raw
flag word; bits follow `text/tabwriter`: FilterHTML=1, StripEscape=2,
AlignRight=4, DiscardEmptyColumns=8, TabIndent=16, Debug=32. -/
structure TWConfig where
  minwidth : Nat
  tabwidth : Nat
  padding : Nat
  padchar : Char
  flags : Nat

/-- Effective right-alignment: `Writer.Init` clears `AlignRight` when the pad
character is a tab ("tab padding enforces left-alignment"). -/
def TWConfig.alignRight (tw : TWConfig) : Bool :=
  tw.flags.testBit 2 && tw.padchar != '\t'

/-- The `DiscardEmptyColumns` bit. -/
def TWConfig.discardEmpty (tw : TWConfig) : Bool :=
  tw.flags.testBit 3

/-- The `TabIndent` bit. -/
def TWConfig.tabIndent (tw : TWConfig) : Bool :=
  tw.flags.testBit 4

/-- The `Debug` bit. -/
def TWConfig.debug (tw : TWConfig) : Bool :=
  tw.flags.testBit 5

/-- A tabwriter cell: its text and whether it was terminated by a horizontal
tab (`cell.htab`).  `cell.width` is the code-point count of `text` and
`cell.size == 0` iff `text = []`. -/
structure Cell where
  text : List Char
  htab : Bool
deriving DecidableEq, Repr

/-- `Writer.Write`'s cell/line splitting: `'\t'`/`'\v'` terminate a cell,
`'\n'` terminates the cell and the line; at the end of input the pending cell
is added only if non-empty (`Flush`). Accumulators: `cell` is the pending cell
text, `line` the cells of the current line. -/
def parseAux : List Char → List Char → List Cell → List (List Cell)
  | [], cell, line =>
      [if cell.isEmpty then line else line ++ [⟨cell, false⟩]]
  | c :: cs, cell, line =>
      if c = '\t' then parseAux cs [] (line ++ [⟨cell, true⟩])
      else if c = '\x0b' then parseAux cs [] (line ++ [⟨cell, false⟩])
      else if c = '\n' then (line ++ [⟨cell, false⟩]) :: parseAux cs [] []
      else parseAux cs (cell ++ [c]) line

/-- The buffered lines of cells for a whole input. -/
def parseLines (input : List Char) : List (List Cell) :=
  parseAux input [] []

/-- `Writer.writePadding textw cellw useTabs`: pad a cell of text width
`textw` to width `cellw`. With tab padding the cell width is rounded up to a
multiple of `tabwidth` and tabs are emitted; otherwise `cellw - textw` pad
characters are emitted. -/
def writePadding (tw : TWConfig) (textw cellw : Nat) (useTabs : Bool) : List Char :=
  if tw.padchar = '\t' ∨ useTabs then
    if tw.tabwidth = 0 then []
    else
      let cellw2 := (cellw + tw.tabwidth - 1) / tw.tabwidth * tw.tabwidth
      List.replicate ((cellw2 - textw + tw.tabwidth - 1) / tw.tabwidth) '\t'
  else
    List.replicate (cellw - textw) tw.padchar

/-- The padding-and-text output of one cell in `Writer.writeLines`: `j` is
the column index, `useTabs` the leading-empty-cell tab-indent state. Cells
with a known column width (`j < widths.length`) are padded; in `AlignRight`
mode the padding (short by `tw.padding`) precedes the text. -/
def cellOut (tw : TWConfig) (widths : List Nat) (j : Nat) (useTabs : Bool) (c : Cell) :
    List Char :=
  if c.text.isEmpty then
    match widths.get? j with
    | some w => writePadding tw c.text.length w useTabs
    | none => []
  else
    if tw.alignRight then
      (match widths.get? j with
       | some w =>
           writePadding tw c.text.length (c.text.length + (w - (c.text.length + tw.padding))) false
       | none => []) ++ c.text
    else
      c.text ++
        (match widths.get? j with
         | some w => writePadding tw c.text.length w false
         | none => [])

/-- The per-cell loop of `Writer.writeLines` for one line: with the `Debug`
flag a `'|'` column mark precedes every cell but the first; `useTabs` stays
set across empty cells and is cleared by the first non-empty one. -/
def renderCells (tw : TWConfig) (widths : List Nat) : Nat → Bool → List Cell → List Char
  | _, _, [] => []
  | j, useTabs, c :: cs =>
    (if 0 < j ∧ tw.debug = true then ['|'] else []) ++ cellOut tw widths j useTabs c ++
      renderCells tw widths (j + 1) (useTabs && c.text.isEmpty) cs

/-- One line of `Writer.writeLines`: `useTabs` starts true iff
`flags&(TabIndent|AlignRight) == TabIndent`. -/
def renderLine (tw : TWConfig) (widths : List Nat) (line : List Cell) : List Char :=
  renderCells tw widths 0 (tw.tabIndent && !tw.alignRight) line

/-- The width of one column block (`Writer.format`'s inner loop): the max of
`minwidth` and `cell.width + padding` over the block, or `0` when the whole
block is discardable and `DiscardEmptyColumns` is set. `col` is the column
index; every block line is known to have a tab-terminated cell there. -/
def blockWidth (tw : TWConfig) (col : Nat) (block : List (List Cell)) : Nat :=
  let width := block.foldl (fun w line =>
    match line.get? col with
    | some c => max w (c.text.length + tw.padding)
    | none => w) tw.minwidth
  let discardable := block.all (fun line =>
    match line.get? col with
    | some c => c.text.isEmpty && !c.htab
    | none => true)
  if discardable && tw.discardEmpty then 0 else width

/-- Max cell count over buffered lines (used only to size the fuel below). -/
def maxCells (ls : List (List Cell)) : Nat :=
  ls.foldl (fun m l => max m l.length) 0

/-- `Writer.format`: `widths` is the stack of widths of the enclosing column
blocks (its length is the current column index). A line whose cell at the
current column is absent or last (`line.length ≤ widths.length + 1`) is
rendered at the current widths; otherwise a maximal block of lines with a
tab-terminated cell at this column is formatted one column deeper. The `fuel`
argument makes the recursion structural; the top-level call provides
`lines.length + maxCells lines + 1`, which exceeds the recursion depth, so the
fuel-exhausted base case is never reached. -/
def formatAux (tw : TWConfig) : Nat → List Nat → List (List Cell) → List (List Char)
  | 0, widths, seg => seg.map (renderLine tw widths)
  | fuel + 1, widths, seg =>
    match seg with
    | [] => []
    | line :: rest =>
      if line.length ≤ widths.length + 1 then
        renderLine tw widths line :: formatAux tw fuel widths rest
      else
        formatAux tw fuel
            (widths ++ [blockWidth tw widths.length
              ((line :: rest).takeWhile (fun l => decide (widths.length + 1 < l.length)))])
            ((line :: rest).takeWhile (fun l => decide (widths.length + 1 < l.length))) ++
          formatAux tw fuel widths
            ((line :: rest).dropWhile (fun l => decide (widths.length + 1 < l.length)))

/-- Join rendered lines with `'\n'`: `writeLines` writes a newline after every
buffered line except the globally last one. -/
def joinLines : List (List Char) → List Char
  | [] => []
  | [l] => l
  | l :: ls => l ++ '\n' :: joinLines ls

/-- `strings.Split` on the formfeed byte: `Writer.Write` terminates the line
and flushes the section at every `'\f'`, so each formfeed-delimited section
is formatted independently. -/
def splitFF : List Char → List (List Char)
  | [] => [[]]
  | c :: cs =>
      if c = '\x0c' then [] :: splitFF cs
      else
        match splitFF cs with
        | [] => [[c]]
        | s :: ss => (c :: s) :: ss

/-- What separates two sections in the output: the newline of the line the
formfeed terminated, then — with the `Debug` flag — the `---` section break
`Write` emits after the flush. -/
def sectionSep (tw : TWConfig) : List Char :=
  '\n' :: (if tw.debug = true then ['-', '-', '-', '\n'] else [])

/-- Join section outputs with the section separator. -/
def joinSections (sep : List Char) : List (List Char) → List Char
  | [] => []
  | [s] => s
  | s :: ss => s ++ sep ++ joinSections sep ss

/-- One formfeed-free section through the engine: buffer the lines, format,
join with newlines (a newline after every buffered line except the last). -/
def tabwriteSection (tw : TWConfig) (sec : List Char) : List Char :=
  joinLines (formatAux tw ((parseLines sec).length + maxCells (parseLines sec) + 1) []
    (parseLines sec))

/-- The whole alignment engine: `NewWriter(...); Write(input); Flush()`. -/
def tabwrite (tw : TWConfig) (input : List Char) : List Char :=
  joinSections (sectionSep tw) ((splitFF input).map (tabwriteSection tw))

/-! ## The `ftable` program model -/

/-- The reserved sentinel byte `termChar = 0x0e` (`ftable.go:17`). -/
def termChar : Char := '\x0e'

/-- Program configuration: the command-line flags. `flags` is the accumulated
`-flags` word passed on to the alignment engine. -/
structure Config where
  box : Bool
  header : Bool
  rowlines : Bool
  minwidth : Nat
  tabwidth : Nat
  padding : Nat
  padchar : Char
  flags : Nat

/-- The `tabwriter.NewWriter` arguments derived from the configuration. -/
def Config.tw (cfg : Config) : TWConfig :=
  ⟨cfg.minwidth, cfg.tabwidth, cfg.padding, cfg.padchar, cfg.flags⟩

/-- `bytes.Replace(bs, "\t", repl, -1)` with a one-byte pattern: every tab is
replaced by `repl`. -/
def replaceTab (repl : List Char) : List Char → List Char
  | [] => []
  | c :: cs => (if c = '\t' then repl else [c]) ++ replaceTab repl cs

/-- Sentinel injection (`ftable.go:102-106`): with the raw `AlignRight` bit
set, each tab becomes `' ', termChar, ' ', '\t'`; otherwise
`'\t', termChar, ' '`.  Note the pad bytes are literal spaces. -/
def injectSentinels (flags : Nat) (bs : List Char) : List Char :=
  if flags.testBit 2 then replaceTab [' ', termChar, ' ', '\t'] bs
  else replaceTab ['\t', termChar, ' '] bs

/-- The aligned line set (`ftable.go:113`): the engine's output on the
sentinel-injected input, split on `'\n'`. -/
def alignedLines (cfg : Config) (input : List Char) : List (List Char) :=
  (tabwrite cfg.tw (injectSentinels cfg.flags input)).splitOn '\n'

/-- `maxLen` before the `maxLen++` (`ftable.go:114-119`): the maximum
code-point length over the aligned lines. -/
def maxLineLen (ls : List (List Char)) : Nat :=
  ls.foldl (fun m l => max m l.length) 0

/-- Render Width: `maxLen` after the increment at `ftable.go:140`. -/
def renderWidth (ls : List (List Char)) : Nat :=
  maxLineLen ls + 1

/-- Membership in the `separators` map (`ftable.go:115-126`): column `i` is a
separator column iff some aligned line has the sentinel code point at rune
index `i`. -/
def isSepCol (ls : List (List Char)) (i : Nat) : Bool :=
  ls.any (fun l => l.get? i == some termChar)

/-- The size of the `separators` map: the number of distinct separator
columns (all of which lie below `maxLineLen ls`). -/
def sepCount (ls : List (List Char)) : Nat :=
  ((List.range (maxLineLen ls)).filter (fun i => isSepCol ls i)).length

/-- The loop body of `applySep` (`ftable.go:128-138`), walking the runes with
their index: a rune at a separator-set index is replaced by `r` when `force`
is set or the rune is the sentinel. -/
def applySepGo (sep : Nat → Bool) (r : Char) (force : Bool) : Nat → List Char → List Char
  | _, [] => []
  | i, c :: cs =>
      (if sep i && (force || c == termChar) then r else c) :: applySepGo sep r force (i + 1) cs

/-- `applySep(sep, r, force)` from `ftable.go:128-138`, parameterised by the
separator-column set. -/
def applySep (sep : Nat → Bool) (line : List Char) (r : Char) (force : Bool) : List Char :=
  applySepGo sep r force 0 line

/-- Right-pad a line with spaces up to `n` code points (`ftable.go:151-152`,
161-162, 171-172; the pad byte is a literal `' '`). -/
def padTo (n : Nat) (l : List Char) : List Char :=
  if l.length < n then l ++ List.replicate (n - l.length) ' ' else l

/-- A horizontal rule `<left><mid><applySep(repeat mid maxLen, junction, true)><right>`
— the shared shape of the five `fmt.Printf` rule formats. -/
def ruleLine (sep : Nat → Bool) (maxLen : Nat) (left mid junction right : Char) : List Char :=
  left :: mid :: applySep sep (List.replicate maxLen mid) junction true ++ [right]

/-- A data row `│ <padded line>│` (`ftable.go:160-167`, 170-178). -/
def dataRow (sep : Nat → Bool) (maxLen : Nat) (line : List Char) : List Char :=
  '│' :: ' ' :: padTo maxLen (applySep sep line '│' false) ++ ['│']

/-- The header row `┃ <line>┃` (`ftable.go:150-157`): `applySep` is applied
once before padding and once more inside the `Printf` argument. -/
def headerRow (sep : Nat → Bool) (maxLen : Nat) (line : List Char) : List Char :=
  '┃' :: ' ' ::
    applySep sep (padTo maxLen (applySep sep line '┃' false)) '┃' false ++ ['┃']

/-- The body rows after the first line (`ftable.go:169-179`): a `├─...┤` rule
precedes a row iff `rowlines` is set and the row is not the first one after a
header (`ruleFirst` is false exactly for the row at `n = 1` when a header was
drawn). -/
def bodyRows (sep : Nat → Bool) (maxLen : Nat) (rowlines ruleFirst : Bool) :
    List (List Char) → List (List Char)
  | [] => []
  | line :: rest =>
      (if rowlines && ruleFirst then [ruleLine sep maxLen '├' '─' '┼' '┤'] else []) ++
        dataRow sep maxLen line :: bodyRows sep maxLen rowlines true rest

/-- The box overlay renderer (`ftable.go:113-183`) on the aligned line set:
the emitted output lines, each without its trailing newline. -/
def renderBox (header rowlines : Bool) (ls : List (List Char)) : List (List Char) :=
  let sep := isSepCol ls
  let maxLen := renderWidth ls
  let body :=
    match ls with
    | [] => []
    | first :: rest =>
      (if header then
        [ruleLine sep maxLen '┏' '━' '┳' '┓',
         headerRow sep maxLen first,
         ruleLine sep maxLen '┡' '━' '╇' '┩']
       else
        [ruleLine sep maxLen '┌' '─' '┬' '┐',
         dataRow sep maxLen first]) ++
        bodyRows sep maxLen rowlines (!header) rest
  body ++ [ruleLine sep maxLen '└' '━' '┴' '┘']

/-- The lines the program prints in box mode. -/
def ftableLines (cfg : Config) (input : List Char) : List (List Char) :=
  renderBox cfg.header cfg.rowlines (alignedLines cfg input)

/-- The program's stdout: plain engine output without `-box`; otherwise the
boxed rendering, every line followed by a newline. -/
def ftable (cfg : Config) (input : List Char) : List Char :=
  if cfg.box then (ftableLines cfg input).flatMap (fun l => l ++ ['\n'])
  else tabwrite cfg.tw input

/-- The number of sentinel code points carried by the cells of one buffered
line. -/
def lineTerm (line : List Cell) : Nat :=
  (line.map (fun c => c.text.count termChar)).sum

/-- The number of field-separator bytes (`'\t'`) in each line of a text, in
order; always non-empty (a text has one more line than newlines). -/
def lineTabCounts : List Char → List Nat
  | [] => [0]
  | c :: cs =>
      match lineTabCounts cs with
      | [] => [0]
      | t :: ts => if c = '\n' then 0 :: t :: ts else (if c = '\t' then t + 1 else t) :: ts

/-- The number of field separators in the input line with the most fields. -/
def maxTabs (input : List Char) : Nat :=
  (lineTabCounts input).foldl max 0

/-! ## `-flags` parsing (`tabFlags.Set`, `ftable.go:38-49`) -/

/-- The `flagNames` table (`ftable.go:21-36`): flag name to `tabwriter` bit. -/
def flagBit : List Char → Option Nat
  | ['f','i','l','t','e','r','-','h','t','m','l'] => some 1
  | ['s','t','r','i','p','-','e','s','c','a','p','e'] => some 2
  | ['a','l','i','g','n','-','r','i','g','h','t'] => some 4
  | ['d','i','s','c','a','r','d','-','e','m','p','t','y'] => some 8
  | ['t','a','b','-','i','n','d','e','n','t'] => some 16
  | ['d','e','b','u','g'] => some 32
  | _ => none

/-- `strings.Split(v, ",")`. -/
def splitComma : List Char → List (List Char)
  | [] => [[]]
  | c :: cs =>
      if c = ',' then [] :: splitComma cs
      else
        match splitComma cs with
        | [] => [[c]]
        | s :: ss => (c :: s) :: ss

/-- The loop of `tabFlags.Set`: for each `name` in the split list the source
looks up `flagNames[v]` — the whole argument string `v`, not `name` — and on
failure reports `unrecognized flag %q` with `name`. -/
def tabFlagsGo (v : List Char) : List (List Char) → Nat → Except (List Char) Nat
  | [], flags => Except.ok flags
  | name :: names, flags =>
      match flagBit v with
      | some b => tabFlagsGo v names (flags ||| b)
      | none =>
          Except.error (('u' :: 'n' :: 'r' :: 'e' :: 'c' :: 'o' :: 'g' :: 'n' :: 'i' :: 'z' ::
            'e' :: 'd' :: ' ' :: 'f' :: 'l' :: 'a' :: 'g' :: ' ' :: '"' :: name) ++ ['"'])

/-- `(t *tabFlags).Set(v)`: returns the new flag word or the error. -/
def tabFlagsSet (t : Nat) (v : List Char) : Except (List Char) Nat :=
  tabFlagsGo v (splitComma v) t

/-! ## Helper lemmas -/

theorem applySepGo_length (sep : Nat → Bool) (r : Char) (force : Bool) (l : List Char) :
    ∀ j, (applySepGo sep r force j l).length = l.length := by
  induction l with
  | nil => intro j; rfl
  | cons c cs ih => intro j; simp [applySepGo, ih]

theorem applySep_length (sep : Nat → Bool) (l : List Char) (r : Char) (force : Bool) :
    (applySep sep l r force).length = l.length :=
  applySepGo_length sep r force l 0

theorem applySepGo_get? (sep : Nat → Bool) (r : Char) (force : Bool) (l : List Char) :
    ∀ j i, (applySepGo sep r force j l).get? i =
      (l.get? i).map fun c => if sep (j + i) && (force || c == termChar) then r else c := by
  induction l with
  | nil => intro j i; simp [applySepGo]
  | cons c cs ih =>
      intro j i
      cases i with
      | zero => simp [applySepGo]
      | succ n =>
          simp only [applySepGo, List.get?_cons_succ]
          rw [ih (j + 1) n, show j + 1 + n = j + (n + 1) from by omega]

theorem applySep_get? (sep : Nat → Bool) (l : List Char) (r : Char) (force : Bool) (i : Nat) :
    (applySep sep l r force).get? i =
      (l.get? i).map fun c => if sep i && (force || c == termChar) then r else c := by
  simpa using applySepGo_get? sep r force l 0 i

theorem foldl_max_len_init_le (ls : List (List Char)) :
    ∀ a : Nat, a ≤ ls.foldl (fun m l => max m l.length) a := by
  induction ls with
  | nil => intro a; simp
  | cons l t ih =>
      intro a
      exact le_trans (le_max_left a l.length) (ih (max a l.length))

theorem length_le_foldl_max (ls : List (List Char)) (x : List Char) (hx : x ∈ ls) :
    ∀ a : Nat, x.length ≤ ls.foldl (fun m l => max m l.length) a := by
  induction ls with
  | nil => cases hx
  | cons l t ih =>
      intro a
      rcases List.mem_cons.mp hx with rfl | hx'
      · exact le_trans (le_trans (le_max_right a x.length)
          (le_refl _)) (foldl_max_len_init_le t (max a x.length))
      · exact ih hx' (max a l.length)

/-- A line of the aligned line set is at most `maxLineLen` code points long. -/
theorem length_le_maxLineLen {ls : List (List Char)} {x : List Char} (hx : x ∈ ls) :
    x.length ≤ maxLineLen ls :=
  length_le_foldl_max ls x hx 0

theorem padTo_eq_append {n : Nat} {l : List Char} (h : l.length < n) :
    padTo n l = l ++ List.replicate (n - l.length) ' ' := by
  simp [padTo, h]

theorem padTo_length {n : Nat} {l : List Char} (h : l.length < n) :
    (padTo n l).length = n := by
  rw [padTo_eq_append h]
  simp
  omega


theorem ruleLine_length (sep : Nat → Bool) (m : Nat) (a b c d : Char) :
    (ruleLine sep m a b c d).length = m + 3 := by
  simp [ruleLine, applySep_length]

theorem dataRow_length {sep : Nat → Bool} {m : Nat} {line : List Char}
    (h : line.length < m) :
    (dataRow sep m line).length = m + 3 := by
  have hb : (applySep sep line '│' false).length < m := by
    rw [applySep_length]; exact h
  simp [dataRow, padTo_length hb]

theorem headerRow_length {sep : Nat → Bool} {m : Nat} {line : List Char}
    (h : line.length < m) :
    (headerRow sep m line).length = m + 3 := by
  have hb : (applySep sep line '┃' false).length < m := by
    rw [applySep_length]; exact h
  simp [headerRow, applySep_length, padTo_length hb]

theorem mem_bodyRows {sep : Nat → Bool} {m : Nat} {rl rf : Bool}
    {rest : List (List Char)} {l : List Char} :
    l ∈ bodyRows sep m rl rf rest →
      l = ruleLine sep m '├' '─' '┼' '┤' ∨ ∃ x ∈ rest, l = dataRow sep m x := by
  induction rest generalizing rf with
  | nil => intro h; simp [bodyRows] at h
  | cons x t ih =>
      intro h
      simp only [bodyRows, List.mem_append, List.mem_cons] at h
      rcases h with h | h | h
      · by_cases hb : (rl && rf) = true
        · rw [if_pos hb] at h
          exact Or.inl (List.mem_singleton.mp h)
        · rw [if_neg hb] at h
          cases h
      · exact Or.inr ⟨x, List.mem_cons_self x t, h⟩
      · rcases ih h with h' | ⟨y, hy, h'⟩
        · exact Or.inl h'
        · exact Or.inr ⟨y, List.mem_cons_of_mem x hy, h'⟩

/-- Every line the boxed renderer emits is one of the five rules, a header
row of a line of the set, or a data row of a line of the set. -/
theorem mem_renderBox {hd rl : Bool} {ls : List (List Char)} {l : List Char}
    (h : l ∈ renderBox hd rl ls) :
    l = ruleLine (isSepCol ls) (renderWidth ls) '┌' '─' '┬' '┐' ∨
    l = ruleLine (isSepCol ls) (renderWidth ls) '┏' '━' '┳' '┓' ∨
    l = ruleLine (isSepCol ls) (renderWidth ls) '┡' '━' '╇' '┩' ∨
    l = ruleLine (isSepCol ls) (renderWidth ls) '├' '─' '┼' '┤' ∨
    l = ruleLine (isSepCol ls) (renderWidth ls) '└' '━' '┴' '┘' ∨
    (∃ x ∈ ls, l = headerRow (isSepCol ls) (renderWidth ls) x) ∨
    (∃ x ∈ ls, l = dataRow (isSepCol ls) (renderWidth ls) x) := by
  cases ls with
  | nil =>
      have h' : l = ruleLine (isSepCol ([] : List (List Char))) (renderWidth []) '└' '━' '┴' '┘' := by
        simpa [renderBox] using h
      tauto
  | cons first rest =>
      cases hd with
      | true =>
          rw [show renderBox true rl (first :: rest) =
              ([ruleLine (isSepCol (first :: rest)) (renderWidth (first :: rest)) '┏' '━' '┳' '┓',
                headerRow (isSepCol (first :: rest)) (renderWidth (first :: rest)) first,
                ruleLine (isSepCol (first :: rest)) (renderWidth (first :: rest)) '┡' '━' '╇' '┩'] ++
                bodyRows (isSepCol (first :: rest)) (renderWidth (first :: rest)) rl false rest) ++
                [ruleLine (isSepCol (first :: rest)) (renderWidth (first :: rest)) '└' '━' '┴' '┘']
              from rfl] at h
          rcases List.mem_append.mp h with h2 | h2
          · rcases List.mem_append.mp h2 with h3 | h3
            · rcases List.mem_cons.mp h3 with rfl | h4
              · tauto
              · rcases List.mem_cons.mp h4 with rfl | h5
                · exact Or.inr (Or.inr (Or.inr (Or.inr (Or.inr (Or.inl
                    ⟨first, List.mem_cons_self _ _, rfl⟩)))))
                · rcases List.mem_singleton.mp h5 with rfl
                  tauto
            · rcases mem_bodyRows h3 with h' | ⟨x, hx, h'⟩
              · tauto
              · exact Or.inr (Or.inr (Or.inr (Or.inr (Or.inr (Or.inr
                  ⟨x, List.mem_cons_of_mem _ hx, h'⟩)))))
          · rcases List.mem_singleton.mp h2 with rfl
            tauto
      | false =>
          rw [show renderBox false rl (first :: rest) =
              ([ruleLine (isSepCol (first :: rest)) (renderWidth (first :: rest)) '┌' '─' '┬' '┐',
                dataRow (isSepCol (first :: rest)) (renderWidth (first :: rest)) first] ++
                bodyRows (isSepCol (first :: rest)) (renderWidth (first :: rest)) rl true rest) ++
                [ruleLine (isSepCol (first :: rest)) (renderWidth (first :: rest)) '└' '━' '┴' '┘']
              from rfl] at h
          rcases List.mem_append.mp h with h2 | h2
          · rcases List.mem_append.mp h2 with h3 | h3
            · rcases List.mem_cons.mp h3 with rfl | h4
              · tauto
              · rcases List.mem_singleton.mp h4 with rfl
                exact Or.inr (Or.inr (Or.inr (Or.inr (Or.inr (Or.inr
                  ⟨first, List.mem_cons_self _ _, rfl⟩)))))
            · rcases mem_bodyRows h3 with h' | ⟨x, hx, h'⟩
              · tauto
              · exact Or.inr (Or.inr (Or.inr (Or.inr (Or.inr (Or.inr
                  ⟨x, List.mem_cons_of_mem _ hx, h'⟩)))))
          · rcases List.mem_singleton.mp h2 with rfl
            tauto

/-- With `rowlines` set and no pending header exception, the body rows are
exactly the data rows with the row rule interspersed between consecutive
pairs. -/
theorem bodyRows_intersperse (sep : Nat → Bool) (m : Nat) :
    ∀ (rest : List (List Char)) (first : List Char),
      dataRow sep m first :: bodyRows sep m true true rest =
        List.intersperse (ruleLine sep m '├' '─' '┼' '┤')
          ((first :: rest).map (dataRow sep m)) := by
  intro rest
  induction rest with
  | nil => intro first; rfl
  | cons x t ih =>
      intro first
      rw [List.map_cons, List.map_cons, List.intersperse_cons_cons,
        ← List.map_cons (dataRow sep m) x t, ← ih x]
      rfl

/-- Every code point a padding run emits is the pad character or a tab. -/
theorem writePadding_chars (tw : TWConfig) (a b : Nat) (u : Bool) (c : Char)
    (hc : c ∈ writePadding tw a b u) : c = tw.padchar ∨ c = '\t' := by
  rw [writePadding] at hc
  split at hc
  · split at hc
    · cases hc
    · exact Or.inr (List.eq_of_mem_replicate hc)
  · exact Or.inl (List.eq_of_mem_replicate hc)

/-- Every code point of a rendered line comes from a cell's text, or is the
pad character or a tab. -/
theorem cellOut_chars (tw : TWConfig) (ws : List Nat) (j : Nat) (u : Bool) (d : Cell)
    (c : Char) (hc : c ∈ cellOut tw ws j u d) :
    c ∈ d.text ∨ c = tw.padchar ∨ c = '\t' := by
  rw [cellOut] at hc
  split at hc
  · rcases hget : ws.get? j with _ | w
    · rw [hget] at hc; cases hc
    · rw [hget] at hc
      exact Or.inr (writePadding_chars tw _ _ _ c hc)
  · split at hc
    · rcases List.mem_append.mp hc with h1 | h1
      · rcases hget : ws.get? j with _ | w
        · rw [hget] at h1; cases h1
        · rw [hget] at h1
          exact Or.inr (writePadding_chars tw _ _ _ c h1)
      · exact Or.inl h1
    · rcases List.mem_append.mp hc with h1 | h1
      · exact Or.inl h1
      · rcases hget : ws.get? j with _ | w
        · rw [hget] at h1; cases h1
        · rw [hget] at h1
          exact Or.inr (writePadding_chars tw _ _ _ c h1)

/-- Every code point of a rendered line comes from a cell's text, or is the
pad character, a tab, or the `Debug` column mark. -/
theorem renderCells_chars (tw : TWConfig) (ws : List Nat) :
    ∀ (cells : List Cell) (j : Nat) (u : Bool) (c : Char),
      c ∈ renderCells tw ws j u cells →
      (∃ cell ∈ cells, c ∈ cell.text) ∨ c = tw.padchar ∨ c = '\t' ∨ c = '|' := by
  intro cells
  induction cells with
  | nil => intro j u c hc; cases hc
  | cons d cs ih =>
      intro j u c hc
      rw [renderCells] at hc
      rcases List.mem_append.mp hc with h1 | h1
      · rcases List.mem_append.mp h1 with h2 | h2
        · split at h2
          · rcases List.mem_singleton.mp h2 with rfl
            exact Or.inr (Or.inr (Or.inr rfl))
          · cases h2
        · rcases cellOut_chars tw ws j u d c h2 with h3 | h3 | h3
          · exact Or.inl ⟨d, List.mem_cons_self _ _, h3⟩
          · exact Or.inr (Or.inl h3)
          · exact Or.inr (Or.inr (Or.inl h3))
      · rcases ih (j + 1) _ c h1 with ⟨cell, hcell, hcc⟩ | h3
        · exact Or.inl ⟨cell, List.mem_cons_of_mem d hcell, hcc⟩
        · exact Or.inr h3

theorem renderLine_chars (tw : TWConfig) (ws : List Nat) (line : List Cell) (c : Char)
    (hc : c ∈ renderLine tw ws line) :
    (∃ cell ∈ line, c ∈ cell.text) ∨ c = tw.padchar ∨ c = '\t' ∨ c = '|' :=
  renderCells_chars tw ws line 0 _ c hc

theorem mem_of_mem_takeWhile {α : Type} {p : α → Bool} {l : List α} {x : α}
    (h : x ∈ l.takeWhile p) : x ∈ l := by
  rw [← List.takeWhile_append_dropWhile (p := p) (l := l)]
  exact List.mem_append_left _ h

theorem mem_of_mem_dropWhile {α : Type} {p : α → Bool} {l : List α} {x : α}
    (h : x ∈ l.dropWhile p) : x ∈ l := by
  rw [← List.takeWhile_append_dropWhile (p := p) (l := l)]
  exact List.mem_append_right _ h

/-- Every code point of the formatted output comes from some cell of some
buffered line in the segment, or is the pad character or a tab. -/
theorem formatAux_chars (tw : TWConfig) :
    ∀ (fuel : Nat) (ws : List Nat) (seg : List (List Cell)) (l : List Char) (c : Char),
      l ∈ formatAux tw fuel ws seg → c ∈ l →
      (∃ line ∈ seg, ∃ cell ∈ line, c ∈ cell.text) ∨ c = tw.padchar ∨ c = '\t' ∨ c = '|' := by
  intro fuel
  induction fuel with
  | zero =>
      intro ws seg l c hl hc
      rw [formatAux] at hl
      rcases List.mem_map.mp hl with ⟨line, hline, rfl⟩
      rcases renderLine_chars tw ws line c hc with ⟨cell, hcell, hcc⟩ | h2
      · exact Or.inl ⟨line, hline, cell, hcell, hcc⟩
      · exact Or.inr h2
  | succ fuel ih =>
      intro ws seg l c hl hc
      cases seg with
      | nil => rw [formatAux] at hl; cases hl
      | cons line rest =>
          rw [formatAux] at hl
          split at hl
          · rcases List.mem_cons.mp hl with rfl | h1
            · rcases renderLine_chars tw ws line c hc with ⟨cell, hcell, hcc⟩ | h2
              · exact Or.inl ⟨line, List.mem_cons_self _ _, cell, hcell, hcc⟩
              · exact Or.inr h2
            · rcases ih ws rest l c h1 hc with ⟨x, hx, rest'⟩ | h2
              · exact Or.inl ⟨x, List.mem_cons_of_mem _ hx, rest'⟩
              · exact Or.inr h2
          · rcases List.mem_append.mp hl with h1 | h1
            · rcases ih _ _ l c h1 hc with ⟨x, hx, rest'⟩ | h2
              · exact Or.inl ⟨x, mem_of_mem_takeWhile hx, rest'⟩
              · exact Or.inr h2
            · rcases ih _ _ l c h1 hc with ⟨x, hx, rest'⟩ | h2
              · exact Or.inl ⟨x, mem_of_mem_dropWhile hx, rest'⟩
              · exact Or.inr h2

/-- Every code point a buffered cell carries comes from the raw text or one
of the accumulators. -/
theorem parseAux_chars :
    ∀ (cs cell : List Char) (line : List Cell) (pl : List Cell) (cl : Cell) (c : Char),
      pl ∈ parseAux cs cell line → cl ∈ pl → c ∈ cl.text →
      c ∈ cs ∨ c ∈ cell ∨ ∃ cl' ∈ line, c ∈ cl'.text := by
  intro cs
  induction cs with
  | nil =>
      intro cell line pl cl c hpl hcl hc
      rw [parseAux] at hpl
      rcases List.mem_singleton.mp hpl with rfl
      split at hcl
      · exact Or.inr (Or.inr ⟨cl, hcl, hc⟩)
      · rcases List.mem_append.mp hcl with h1 | h1
        · exact Or.inr (Or.inr ⟨cl, h1, hc⟩)
        · rcases List.mem_singleton.mp h1 with rfl
          exact Or.inr (Or.inl hc)
  | cons d ds ih =>
      intro cell line pl cl c hpl hcl hc
      rw [parseAux] at hpl
      split at hpl
      · rcases ih [] _ pl cl c hpl hcl hc with h1 | h1 | ⟨cl', hcl', hc'⟩
        · exact Or.inl (List.mem_cons_of_mem d h1)
        · cases h1
        · rcases List.mem_append.mp hcl' with h2 | h2
          · exact Or.inr (Or.inr ⟨cl', h2, hc'⟩)
          · rcases List.mem_singleton.mp h2 with rfl
            exact Or.inr (Or.inl hc')
      · split at hpl
        · rcases ih [] _ pl cl c hpl hcl hc with h1 | h1 | ⟨cl', hcl', hc'⟩
          · exact Or.inl (List.mem_cons_of_mem d h1)
          · cases h1
          · rcases List.mem_append.mp hcl' with h2 | h2
            · exact Or.inr (Or.inr ⟨cl', h2, hc'⟩)
            · rcases List.mem_singleton.mp h2 with rfl
              exact Or.inr (Or.inl hc')
        · split at hpl
          · rcases List.mem_cons.mp hpl with rfl | h1
            · rcases List.mem_append.mp hcl with h2 | h2
              · exact Or.inr (Or.inr ⟨cl, h2, hc⟩)
              · rcases List.mem_singleton.mp h2 with rfl
                exact Or.inr (Or.inl hc)
            · rcases ih [] [] pl cl c h1 hcl hc with h2 | h2 | ⟨cl', hcl', _⟩
              · exact Or.inl (List.mem_cons_of_mem d h2)
              · cases h2
              · cases hcl'
          · rcases ih _ line pl cl c hpl hcl hc with h1 | h1 | ⟨cl', hcl', hc'⟩
            · exact Or.inl (List.mem_cons_of_mem d h1)
            · rcases List.mem_append.mp h1 with h2 | h2
              · exact Or.inr (Or.inl h2)
              · rcases List.mem_singleton.mp h2 with rfl
                exact Or.inl (List.mem_cons_self _ _)
            · exact Or.inr (Or.inr ⟨cl', hcl', hc'⟩)

theorem joinLines_chars :
    ∀ (ls : List (List Char)) (c : Char), c ∈ joinLines ls →
      (∃ l ∈ ls, c ∈ l) ∨ c = '\n' := by
  intro ls
  induction ls with
  | nil => intro c hc; cases hc
  | cons l t ih =>
      intro c hc
      cases t with
      | nil => exact Or.inl ⟨l, List.mem_singleton.mpr rfl, hc⟩
      | cons l2 t2 =>
          rw [show joinLines (l :: l2 :: t2) = l ++ '\n' :: joinLines (l2 :: t2) from rfl] at hc
          rcases List.mem_append.mp hc with h1 | h1
          · exact Or.inl ⟨l, List.mem_cons_self _ _, h1⟩
          · rcases List.mem_cons.mp h1 with rfl | h2
            · exact Or.inr rfl
            · rcases ih c h2 with ⟨x, hx, hc'⟩ | h3
              · exact Or.inl ⟨x, List.mem_cons_of_mem _ hx, hc'⟩
              · exact Or.inr h3

theorem splitFF_chars :
    ∀ (input : List Char) (s : List Char), s ∈ splitFF input → ∀ c ∈ s, c ∈ input := by
  intro input
  induction input with
  | nil =>
      intro s hs c hc
      rw [splitFF] at hs
      rcases List.mem_singleton.mp hs with rfl
      cases hc
  | cons d ds ih =>
      intro s hs c hc
      rw [splitFF] at hs
      split at hs
      · rcases List.mem_cons.mp hs with rfl | hs2
        · cases hc
        · exact List.mem_cons_of_mem d (ih s hs2 c hc)
      · rcases hsp : splitFF ds with _ | ⟨s1, ss1⟩
        · rw [hsp] at hs
          rcases List.mem_singleton.mp hs with rfl
          rcases List.mem_singleton.mp hc with rfl
          exact List.mem_cons_self _ _
        · rw [hsp] at hs
          rcases List.mem_cons.mp hs with rfl | hs2
          · rcases List.mem_cons.mp hc with rfl | hc2
            · exact List.mem_cons_self _ _
            · exact List.mem_cons_of_mem d
                (ih s1 (by rw [hsp]; exact List.mem_cons_self _ _) c hc2)
          · exact List.mem_cons_of_mem d
              (ih s (by rw [hsp]; exact List.mem_cons_of_mem _ hs2) c hc)

theorem sectionSep_chars (tw : TWConfig) (c : Char) (hc : c ∈ sectionSep tw) :
    c = '\n' ∨ c = '-' := by
  rw [sectionSep] at hc
  rcases List.mem_cons.mp hc with rfl | h1
  · exact Or.inl rfl
  · split at h1
    · simp only [List.mem_cons, List.not_mem_nil, or_false] at h1
      rcases h1 with rfl | rfl | rfl | rfl
      · exact Or.inr rfl
      · exact Or.inr rfl
      · exact Or.inr rfl
      · exact Or.inl rfl
    · cases h1

theorem joinSections_chars (sep : List Char) :
    ∀ (ss : List (List Char)) (c : Char), c ∈ joinSections sep ss →
      (∃ s ∈ ss, c ∈ s) ∨ c ∈ sep := by
  intro ss
  induction ss with
  | nil => intro c hc; cases hc
  | cons s t ih =>
      intro c hc
      cases t with
      | nil => exact Or.inl ⟨s, List.mem_singleton.mpr rfl, hc⟩
      | cons s2 t2 =>
          rw [show joinSections sep (s :: s2 :: t2) = s ++ sep ++ joinSections sep (s2 :: t2)
            from rfl] at hc
          rcases List.mem_append.mp hc with h1 | h1
          · rcases List.mem_append.mp h1 with h2 | h2
            · exact Or.inl ⟨s, List.mem_cons_self _ _, h2⟩
            · exact Or.inr h2
          · rcases ih c h1 with ⟨x, hx, hc2⟩ | h2
            · exact Or.inl ⟨x, List.mem_cons_of_mem _ hx, hc2⟩
            · exact Or.inr h2

/-- Every code point of one section's output is a code point of the section,
the pad character, a tab, a newline, or the `Debug` column mark. -/
theorem tabwriteSection_chars (tw : TWConfig) (sec : List Char) (c : Char)
    (hc : c ∈ tabwriteSection tw sec) :
    c ∈ sec ∨ c = tw.padchar ∨ c = '\t' ∨ c = '\n' ∨ c = '|' := by
  rw [tabwriteSection] at hc
  rcases joinLines_chars _ c hc with ⟨l, hl, hc2⟩ | h1
  · rcases formatAux_chars tw _ _ _ l c hl hc2 with ⟨line, hline, cell, hcell, hcc⟩ | h | h | h
    · rcases parseAux_chars sec [] [] line cell c hline hcell hcc with h3 | h3 | ⟨cl2, hcl2, _⟩
      · exact Or.inl h3
      · cases h3
      · cases hcl2
    · exact Or.inr (Or.inl h)
    · exact Or.inr (Or.inr (Or.inl h))
    · exact Or.inr (Or.inr (Or.inr (Or.inr h)))
  · exact Or.inr (Or.inr (Or.inr (Or.inl h1)))

/-- Every code point of the alignment engine's output is a code point of the
input, the pad character, a tab, a newline, or one of the `Debug` marks `|`
and `-`. -/
theorem tabwrite_chars (tw : TWConfig) (input : List Char) (c : Char)
    (hc : c ∈ tabwrite tw input) :
    c ∈ input ∨ c = tw.padchar ∨ c = '\t' ∨ c = '\n' ∨ c = '|' ∨ c = '-' := by
  rw [tabwrite] at hc
  rcases joinSections_chars _ _ c hc with ⟨so, hso, hc2⟩ | h1
  · rcases List.mem_map.mp hso with ⟨sec, hsec, rfl⟩
    rcases tabwriteSection_chars tw sec c hc2 with h | h | h | h | h
    · exact Or.inl (splitFF_chars input sec hsec c h)
    · exact Or.inr (Or.inl h)
    · exact Or.inr (Or.inr (Or.inl h))
    · exact Or.inr (Or.inr (Or.inr (Or.inl h)))
    · exact Or.inr (Or.inr (Or.inr (Or.inr (Or.inl h))))
  · rcases sectionSep_chars tw c h1 with h | h
    · exact Or.inr (Or.inr (Or.inr (Or.inl h)))
    · exact Or.inr (Or.inr (Or.inr (Or.inr (Or.inr h))))

theorem splitFF_eq_single : ∀ (input : List Char), '\x0c' ∉ input → splitFF input = [input] := by
  intro input
  induction input with
  | nil => intro _; rfl
  | cons d ds ih =>
      intro h
      have hd : ¬ d = '\x0c' := fun hdd => h (hdd ▸ List.mem_cons_self _ _)
      have hds : '\x0c' ∉ ds := fun hm => h (List.mem_cons_of_mem _ hm)
      rw [splitFF, if_neg hd, ih hds]

theorem parseAux_tab (cs cell line) :
    parseAux ('\t' :: cs) cell line = parseAux cs [] (line ++ [⟨cell, true⟩]) := by
  rw [parseAux]
  simp

theorem parseAux_vtab (cs cell line) :
    parseAux ('\x0b' :: cs) cell line = parseAux cs [] (line ++ [⟨cell, false⟩]) := by
  rw [parseAux]
  simp

theorem parseAux_nl (cs cell line) :
    parseAux ('\n' :: cs) cell line = (line ++ [⟨cell, false⟩]) :: parseAux cs [] [] := by
  rw [parseAux]
  simp

theorem parseAux_other {c : Char} (h1 : ¬ c = '\t') (h2 : ¬ c = '\x0b') (h3 : ¬ c = '\n')
    (cs cell line) :
    parseAux (c :: cs) cell line = parseAux cs (cell ++ [c]) line := by
  rw [parseAux, if_neg h1, if_neg h2, if_neg h3]

theorem injectSentinels_nil (flags : Nat) : injectSentinels flags [] = [] := by
  by_cases hb : flags.testBit 2 <;> simp [injectSentinels, replaceTab, hb]

theorem injectSentinels_tab_r (flags : Nat) (h : flags.testBit 2 = true) (ds : List Char) :
    injectSentinels flags ('\t' :: ds) =
      ' ' :: termChar :: ' ' :: '\t' :: injectSentinels flags ds := by
  simp [injectSentinels, replaceTab, h]

theorem injectSentinels_tab_l (flags : Nat) (h : ¬ flags.testBit 2 = true) (ds : List Char) :
    injectSentinels flags ('\t' :: ds) =
      '\t' :: termChar :: ' ' :: injectSentinels flags ds := by
  simp [injectSentinels, replaceTab, h]

theorem injectSentinels_other (flags : Nat) {d : Char} (h : ¬ d = '\t') (ds : List Char) :
    injectSentinels flags (d :: ds) = d :: injectSentinels flags ds := by
  by_cases hb : flags.testBit 2 <;> simp [injectSentinels, replaceTab, hb, h]

theorem lineTerm_append (line : List Cell) (cell : List Char) (b : Bool) :
    lineTerm (line ++ [⟨cell, b⟩]) = lineTerm line + cell.count termChar := by
  simp [lineTerm]

theorem lineTabCounts_ne_nil (cs : List Char) : lineTabCounts cs ≠ [] := by
  cases cs with
  | nil => simp [lineTabCounts]
  | cons c cs' =>
      rcases hcs : lineTabCounts cs' with _ | ⟨t, ts⟩
      · rw [lineTabCounts, hcs]
        simp
      · rw [lineTabCounts, hcs]
        repeat' split
        all_goals simp

theorem lineTabCounts_tab {cs : List Char} {t : Nat} {ts : List Nat}
    (h : lineTabCounts cs = t :: ts) : lineTabCounts ('\t' :: cs) = (t + 1) :: ts := by
  rw [lineTabCounts, h]
  simp

theorem lineTabCounts_nl {cs : List Char} :
    lineTabCounts ('\n' :: cs) = 0 :: lineTabCounts cs := by
  rcases hcs : lineTabCounts cs with _ | ⟨t, ts⟩
  · exact absurd hcs (lineTabCounts_ne_nil cs)
  · rw [lineTabCounts, hcs]
    simp

theorem lineTabCounts_other {d : Char} (h1 : ¬ d = '\t') (h2 : ¬ d = '\n')
    {cs : List Char} {t : Nat} {ts : List Nat} (h : lineTabCounts cs = t :: ts) :
    lineTabCounts (d :: cs) = t :: ts := by
  rw [lineTabCounts, h]
  simp [h1, h2]

theorem forall2_le_head_mono {a b : Nat} {ts : List Nat} {xs : List Nat}
    (hab : a ≤ b) (h : List.Forall₂ (· ≤ ·) (b :: ts) xs) :
    List.Forall₂ (· ≤ ·) (a :: ts) xs := by
  cases h with
  | cons h1 h2 => exact List.Forall₂.cons (le_trans hab h1) h2

/-- Each buffered line carries at least as many sentinels as the raw input
line had tabs: sentinel injection adds one sentinel per tab and the splitter
never drops a code point of cell text. -/
theorem parse_tabs_le (flags : Nat) :
    ∀ (cs cell : List Char) (line : List Cell) (t : Nat) (ts : List Nat),
      lineTabCounts cs = t :: ts →
      List.Forall₂ (· ≤ ·)
        ((lineTerm line + cell.count termChar + t) :: ts)
        ((parseAux (injectSentinels flags cs) cell line).map lineTerm) := by
  intro cs
  induction cs with
  | nil =>
      intro cell line t ts hts
      rw [lineTabCounts] at hts
      cases hts
      rw [injectSentinels_nil, parseAux]
      split
      · next hcell =>
          have : cell = [] := by simpa using hcell
          subst this
          simp
      · simp [lineTerm_append]
  | cons d ds ih =>
      intro cell line t ts hts
      rcases hds : lineTabCounts ds with _ | ⟨t', ts'⟩
      · exact absurd hds (lineTabCounts_ne_nil ds)
      by_cases hdt : d = '\t'
      · subst hdt
        rw [lineTabCounts_tab hds, List.cons.injEq] at hts
        obtain ⟨rfl, rfl⟩ := hts
        by_cases hb : (flags.testBit 2) = true
        · rw [injectSentinels_tab_r flags hb,
            parseAux_other (by decide) (by decide) (by decide),
            parseAux_other (by decide) (by decide) (by decide),
            parseAux_other (by decide) (by decide) (by decide),
            parseAux_tab]
          have h1 : List.count termChar ([' '] : List Char) = 0 := by decide
          have h2 : List.count termChar ([termChar] : List Char) = 1 := by decide
          have heq : lineTerm line + cell.count termChar + (t' + 1) =
              lineTerm (line ++ [⟨cell ++ [' '] ++ [termChar] ++ [' '], true⟩]) +
                List.count termChar ([] : List Char) + t' := by
            rw [lineTerm_append, List.count_append, List.count_append, List.count_append,
              h1, h2]
            simp
            omega
          rw [heq]
          exact ih [] _ _ _ hds
        · rw [injectSentinels_tab_l flags hb,
            parseAux_tab,
            parseAux_other (by decide) (by decide) (by decide),
            parseAux_other (by decide) (by decide) (by decide)]
          have h1 : List.count termChar ([] ++ [termChar] ++ [' '] : List Char) = 1 := by decide
          have heq : lineTerm line + cell.count termChar + (t' + 1) =
              lineTerm (line ++ [⟨cell, true⟩]) +
                List.count termChar ([] ++ [termChar] ++ [' ']) + t' := by
            rw [lineTerm_append, h1]
            omega
          rw [heq]
          exact ih _ _ _ _ hds
      · rw [injectSentinels_other flags hdt]
        by_cases hdn : d = '\n'
        · subst hdn
          rw [lineTabCounts_nl, hds, List.cons.injEq] at hts
          obtain ⟨rfl, rfl⟩ := hts
          rw [parseAux_nl, List.map_cons]
          refine List.Forall₂.cons (by rw [lineTerm_append]; omega) ?_
          have h0 : lineTerm ([] : List Cell) + List.count termChar ([] : List Char) + t' = t' := by
            simp [lineTerm]
          have hrec := ih [] [] _ _ hds
          rw [h0] at hrec
          exact hrec
        · rw [lineTabCounts_other hdt hdn hds, List.cons.injEq] at hts
          obtain ⟨rfl, rfl⟩ := hts
          by_cases hdv : d = '\x0b'
          · subst hdv
            rw [parseAux_vtab]
            have heq : lineTerm line + cell.count termChar + t' =
                lineTerm (line ++ [⟨cell, false⟩]) + List.count termChar ([] : List Char) + t' := by
              rw [lineTerm_append]
              simp [lineTerm]
            rw [heq]
            exact ih [] _ _ _ hds
          · rw [parseAux_other hdt hdv hdn]
            refine forall2_le_head_mono ?_ (ih (cell ++ [d]) line _ _ hds)
            rw [List.count_append]
            omega

theorem cellOut_count (tw : TWConfig) (ws : List Nat) (j : Nat) (u : Bool) (d : Cell) :
    d.text.count termChar ≤ (cellOut tw ws j u d).count termChar := by
  rw [cellOut]
  split
  · next hde =>
      have hd : d.text = [] := by simpa using hde
      simp [hd]
  · split
    · rw [List.count_append]
      omega
    · rw [List.count_append]
      omega

/-- A rendered line carries at least the sentinels of its cells' texts. -/
theorem renderCells_count (tw : TWConfig) (ws : List Nat) :
    ∀ (cells : List Cell) (j : Nat) (u : Bool),
      lineTerm cells ≤ (renderCells tw ws j u cells).count termChar := by
  intro cells
  induction cells with
  | nil => intro j u; simp [lineTerm, renderCells]
  | cons d cs ih =>
      intro j u
      have hl : lineTerm (d :: cs) = d.text.count termChar + lineTerm cs := by
        simp [lineTerm]
      rw [renderCells, hl, List.count_append, List.count_append]
      have h1 := cellOut_count tw ws j u d
      have h2 := ih (j + 1) (u && d.text.isEmpty)
      omega

theorem renderLine_count (tw : TWConfig) (ws : List Nat) (line : List Cell) :
    lineTerm line ≤ (renderLine tw ws line).count termChar :=
  renderCells_count tw ws line 0 _

theorem forall2_self_map {α β : Type} {R : α → β → Prop} {f : α → β} :
    ∀ (seg : List α), (∀ x ∈ seg, R x (f x)) → List.Forall₂ R seg (seg.map f) := by
  intro seg
  induction seg with
  | nil => intro _; exact List.Forall₂.nil
  | cons x t ih =>
      intro h
      exact List.Forall₂.cons (h x (List.mem_cons_self _ _))
        (ih fun y hy => h y (List.mem_cons_of_mem _ hy))

/-- Line-by-line: the formatted output has one line per buffered line, in
order, and each keeps at least its sentinels. -/
theorem formatAux_count (tw : TWConfig) :
    ∀ (fuel : Nat) (ws : List Nat) (seg : List (List Cell)),
      List.Forall₂ (fun line o => lineTerm line ≤ o.count termChar)
        seg (formatAux tw fuel ws seg) := by
  intro fuel
  induction fuel with
  | zero =>
      intro ws seg
      rw [formatAux]
      exact forall2_self_map seg fun line _ => renderLine_count tw ws line
  | succ fuel ih =>
      intro ws seg
      cases seg with
      | nil => rw [formatAux]; exact List.Forall₂.nil
      | cons line rest =>
          rw [formatAux]
          split
          · exact List.Forall₂.cons (renderLine_count tw ws line) (ih ws rest)
          · nth_rewrite 1 [← List.takeWhile_append_dropWhile
              (p := fun l => decide (ws.length + 1 < l.length)) (l := line :: rest)]
            exact List.rel_append (ih _ _) (ih _ _)

theorem parseAux_ne_nil : ∀ (cs cell : List Char) (line : List Cell),
    parseAux cs cell line ≠ [] := by
  intro cs
  induction cs with
  | nil => intro cell line; rw [parseAux]; simp
  | cons d ds ih =>
      intro cell line
      rw [parseAux]
      split
      · exact ih [] _
      · split
        · exact ih [] _
        · split
          · simp
          · exact ih _ line

/-- Cell text never contains a newline: the splitter consumes newlines as
line terminators. -/
theorem parseAux_text_no_nl :
    ∀ (cs cell : List Char) (line : List Cell),
      (∀ c ∈ cell, ¬ c = '\n') → (∀ cl ∈ line, ∀ c ∈ cl.text, ¬ c = '\n') →
      ∀ pl ∈ parseAux cs cell line, ∀ cl ∈ pl, ∀ c ∈ cl.text, ¬ c = '\n' := by
  intro cs
  induction cs with
  | nil =>
      intro cell line h1 h2 pl hpl cl hcl c hc
      rw [parseAux] at hpl
      rcases List.mem_singleton.mp hpl with rfl
      split at hcl
      · exact h2 cl hcl c hc
      · rcases List.mem_append.mp hcl with h3 | h3
        · exact h2 cl h3 c hc
        · rcases List.mem_singleton.mp h3 with rfl
          exact h1 c hc
  | cons d ds ih =>
      intro cell line h1 h2 pl hpl cl hcl c hc
      rw [parseAux] at hpl
      split at hpl
      · refine ih [] _ (by intro c' hc'; cases hc') ?_ pl hpl cl hcl c hc
        intro cl' hcl' c' hc'
        rcases List.mem_append.mp hcl' with h3 | h3
        · exact h2 cl' h3 c' hc'
        · rcases List.mem_singleton.mp h3 with rfl
          exact h1 c' hc'
      · split at hpl
        · refine ih [] _ (by intro c' hc'; cases hc') ?_ pl hpl cl hcl c hc
          intro cl' hcl' c' hc'
          rcases List.mem_append.mp hcl' with h3 | h3
          · exact h2 cl' h3 c' hc'
          · rcases List.mem_singleton.mp h3 with rfl
            exact h1 c' hc'
        · split at hpl
          · rcases List.mem_cons.mp hpl with rfl | h3
            · rcases List.mem_append.mp hcl with h4 | h4
              · exact h2 cl h4 c hc
              · rcases List.mem_singleton.mp h4 with rfl
                exact h1 c hc
            · exact ih [] [] (by intro c' hc'; cases hc') (by intro cl' hcl'; cases hcl')
                pl h3 cl hcl c hc
          · next hd1 hd2 hd3 =>
              refine ih _ line ?_ h2 pl hpl cl hcl c hc
              intro c' hc'
              rcases List.mem_append.mp hc' with h3 | h3
              · exact h1 c' h3
              · rcases List.mem_singleton.mp h3 with rfl
                exact hd3

theorem joinLines_eq_intercalate : ∀ ls : List (List Char),
    joinLines ls = List.intercalate ['\n'] ls := by
  intro ls
  induction ls with
  | nil => rfl
  | cons l t ih =>
      cases t with
      | nil => simp [joinLines, List.intercalate]
      | cons l2 t2 =>
          rw [show joinLines (l :: l2 :: t2) = l ++ '\n' :: joinLines (l2 :: t2) from rfl, ih]
          simp [List.intercalate, List.intersperse_cons_cons]

/-- Splitting the engine's output on newlines recovers exactly the formatted
lines, provided the pad character is not itself a newline and the input has
no formfeed (which would flush mid-stream). -/
theorem tabwrite_splitOn (tw : TWConfig) (input : List Char) (hpad : tw.padchar ≠ '\n')
    (hff : '\x0c' ∉ input) :
    (tabwrite tw input).splitOn '\n' =
      formatAux tw ((parseLines input).length + maxCells (parseLines input) + 1) []
        (parseLines input) := by
  rw [tabwrite, splitFF_eq_single input hff]
  rw [show joinSections (sectionSep tw) ([input].map (tabwriteSection tw)) =
      tabwriteSection tw input from rfl]
  rw [tabwriteSection, joinLines_eq_intercalate]
  refine List.splitOn_intercalate _ '\n' ?_ ?_
  · intro l hl hc
    rcases formatAux_chars tw _ _ _ l '\n' hl hc with ⟨line, hline, cell, hcell, hcc⟩ | h | h | h
    · exact parseAux_text_no_nl input [] [] (by intro c2 hc2; cases hc2)
        (by intro cl2 hcl2; cases hcl2) line hline cell hcell '\n' hcc rfl
    · exact hpad h.symm
    · exact absurd h (by decide)
    · exact absurd h (by decide)
  · intro hnil
    have hlen := List.Forall₂.length_eq
      (formatAux_count tw ((parseLines input).length + maxCells (parseLines input) + 1) []
        (parseLines input))
    rw [hnil] at hlen
    exact parseAux_ne_nil input [] [] (List.length_eq_zero.mp (by simpa using hlen))

/-- Every code point the sentinel injection emits is an input code point or
one of the fixed replacement bytes (space, sentinel, tab). -/
theorem injectSentinels_chars (flags : Nat) :
    ∀ (bs : List Char) (c : Char), c ∈ injectSentinels flags bs →
      c ∈ bs ∨ c = ' ' ∨ c = termChar ∨ c = '\t' := by
  intro bs
  induction bs with
  | nil =>
      intro c hc
      rw [injectSentinels_nil] at hc
      cases hc
  | cons d ds ih =>
      intro c hc
      by_cases hd : d = '\t'
      · subst hd
        by_cases hb : flags.testBit 2 = true
        · rw [injectSentinels_tab_r flags hb] at hc
          rcases List.mem_cons.mp hc with rfl | hc1
          · exact Or.inr (Or.inl rfl)
          rcases List.mem_cons.mp hc1 with rfl | hc2
          · exact Or.inr (Or.inr (Or.inl rfl))
          rcases List.mem_cons.mp hc2 with rfl | hc3
          · exact Or.inr (Or.inl rfl)
          rcases List.mem_cons.mp hc3 with rfl | hc4
          · exact Or.inl (List.mem_cons_self _ _)
          rcases ih c hc4 with h | h
          · exact Or.inl (List.mem_cons_of_mem _ h)
          · exact Or.inr h
        · rw [injectSentinels_tab_l flags hb] at hc
          rcases List.mem_cons.mp hc with rfl | hc1
          · exact Or.inl (List.mem_cons_self _ _)
          rcases List.mem_cons.mp hc1 with rfl | hc2
          · exact Or.inr (Or.inr (Or.inl rfl))
          rcases List.mem_cons.mp hc2 with rfl | hc3
          · exact Or.inr (Or.inl rfl)
          rcases ih c hc3 with h | h
          · exact Or.inl (List.mem_cons_of_mem _ h)
          · exact Or.inr h
      · rw [injectSentinels_other flags hd] at hc
        rcases List.mem_cons.mp hc with rfl | hc1
        · exact Or.inl (List.mem_cons_self _ _)
        rcases ih c hc1 with h | h
        · exact Or.inl (List.mem_cons_of_mem _ h)
        · exact Or.inr h

/-- The sentinel count of a line is bounded by any `countP` over a range
covering the line of a predicate that holds at every sentinel position. -/
theorem count_le_countP_range :
    ∀ (o : List Char) (n : Nat), o.length ≤ n → ∀ f : Nat → Bool,
      (∀ i, o.get? i = some termChar → f i = true) →
      o.count termChar ≤ (List.range n).countP f := by
  intro o
  induction o with
  | nil => intro n _ f _; simp
  | cons c cs ih =>
      intro n hn f hf
      cases n with
      | zero => simp at hn
      | succ n' =>
          have hn' : cs.length ≤ n' := by simpa using hn
          have ihh := ih n' hn' (f ∘ Nat.succ) fun i hi =>
            hf (i + 1) (by rw [List.get?_cons_succ]; exact hi)
          rw [List.range_succ_eq_map, List.countP_cons, List.countP_map, List.count_cons]
          by_cases hc : c = termChar
          · have hf0 : f 0 = true := hf 0 (by rw [List.get?_cons_zero, hc])
            have hcb : (c == termChar) = true := by simpa using hc
            rw [if_pos hf0, if_pos hcb]
            omega
          · have hcb : (c == termChar) = false := by
              simpa using hc
            rw [hcb, if_neg (by simp)]
            split <;> omega

theorem count_le_sepCount {ls : List (List Char)} {o : List Char} (ho : o ∈ ls) :
    o.count termChar ≤ sepCount ls := by
  rw [sepCount, ← List.countP_eq_length_filter]
  refine count_le_countP_range o (maxLineLen ls) (length_le_maxLineLen ho) _ ?_
  intro i hi
  rw [isSepCol, List.any_eq_true]
  exact ⟨o, ho, by rw [hi]; rfl⟩

theorem forall2_mem_left {α β : Type} {R : α → β → Prop} :
    ∀ {as : List α} {bs : List β}, List.Forall₂ R as bs → ∀ {x}, x ∈ as →
      ∃ y ∈ bs, R x y := by
  intro as bs h
  induction h with
  | nil => intro x hx; cases hx
  | cons h1 h2 ih =>
      intro x hx
      rcases List.mem_cons.mp hx with rfl | hx'
      · exact ⟨_, List.mem_cons_self _ _, h1⟩
      · rcases ih hx' with ⟨y, hy, hr⟩
        exact ⟨y, List.mem_cons_of_mem _ hy, hr⟩

theorem forall2_le_count {as : List Nat} {bs : List (List Cell)} {cs : List (List Char)}
    (h1 : List.Forall₂ (· ≤ ·) as (bs.map lineTerm))
    (h2 : List.Forall₂ (fun line o => lineTerm line ≤ o.count termChar) bs cs) :
    List.Forall₂ (fun t o => t ≤ o.count termChar) as cs := by
  induction h2 generalizing as with
  | nil =>
      rw [List.map_nil] at h1
      cases h1
      exact List.Forall₂.nil
  | cons hlo htail ih =>
      rw [List.map_cons] at h1
      cases h1 with
      | cons ha htail1 => exact List.Forall₂.cons (le_trans ha hlo) (ih htail1)

theorem foldl_max_le {b : Nat} : ∀ (ts : List Nat) (a : Nat),
    (∀ t ∈ ts, t ≤ b) → a ≤ b → ts.foldl max a ≤ b := by
  intro ts
  induction ts with
  | nil => intro a _ ha; simpa using ha
  | cons t ts' ih =>
      intro a h ha
      rw [List.foldl_cons]
      exact ih (max a t) (fun x hx => h x (List.mem_cons_of_mem _ hx))
        (max_le ha (h t (List.mem_cons_self _ _)))

/-! ## Claims -/

/-- Claim C1, counterexample: in a boxed run with the align-right flag
(bit 4) and configured pad character `'.'`, the tab is replaced by
`' ', termChar, ' ', '\t'` — literal spaces — and not by the
`'.', termChar, '.', '\t'` the claim prescribes for pad = configured pad
character. -/
theorem C1_cex :
    injectSentinels 4 ['\t'] = [' ', termChar, ' ', '\t'] ∧
    injectSentinels 4 ['\t'] ≠ ['.', termChar, '.', '\t'] := by
  decide

/-- Claim C1, amended: when `-box` is set, before alignment every tab byte in
the raw input is replaced — if the align-right flag bit is set by
`' ', termChar, ' ', '\t'`, otherwise by `'\t', termChar, ' '` — where the
pad byte is the literal space character, regardless of the configured pad
character; all other bytes are unchanged. -/
theorem C1_amended (flags : Nat) (bs : List Char) :
    injectSentinels flags [] = [] ∧
    injectSentinels flags ('\t' :: bs) =
      (if flags.testBit 2 then [' ', termChar, ' ', '\t'] else ['\t', termChar, ' ']) ++
        injectSentinels flags bs ∧
    ∀ c, c ≠ '\t' → injectSentinels flags (c :: bs) = c :: injectSentinels flags bs := by
  refine ⟨?_, ?_, ?_⟩
  · by_cases hb : flags.testBit 2 <;> simp [injectSentinels, replaceTab, hb]
  · by_cases hb : flags.testBit 2 <;> simp [injectSentinels, replaceTab, hb]
  · intro c hc
    by_cases hb : flags.testBit 2 <;> simp [injectSentinels, replaceTab, hb, hc]

/-- Witness for `C1_amended` at a concrete flag word, byte and tail. -/
theorem C1_amended_witness :
    injectSentinels 4 ('x' :: ['\t']) = 'x' :: injectSentinels 4 ['\t'] :=
  (C1_amended 4 ['\t']).2.2 'x' (by decide)

/-- Claim C4 (confirmed): `applySep` preserves the length of the line, and
the rune at index `i` becomes the glyph `r` exactly when `i` is in the
separator set and — unless `force` is set — the rune is the sentinel
`termChar`; every other position (and every index beyond the line) is
unchanged. -/
theorem C4_applySep (sep : Nat → Bool) (line : List Char) (r : Char) (force : Bool) :
    (applySep sep line r force).length = line.length ∧
    ∀ i, (applySep sep line r force).get? i =
      (line.get? i).map fun c => if sep i && (force || c == termChar) then r else c :=
  ⟨applySep_length sep line r force, fun i => applySep_get? sep line r force i⟩

/-- Claim C6, counterexample: `-box` on empty stdin prints three lines — a
top rule, one blank data row, and a bottom rule — not a top rule directly
above a bottom rule with zero data rows. -/
theorem C6_cex :
    ftableLines ⟨true, false, false, 0, 8, 1, ' ', 0⟩ [] =
      [['┌', '─', '─', '┐'], ['│', ' ', ' ', '│'], ['└', '━', '━', '┘']] ∧
    ¬ (ftableLines ⟨true, false, false, 0, 8, 1, ' ', 0⟩ []).length = 2 := by
  decide

/-- Claim C6, amended: running with `-box` on empty stdin (any `-rowlines`
and align-right setting) emits a degenerate box whose interior is a single
blank data row: top rule, one blank row, bottom rule. -/
theorem C6_amended : ∀ rl ar : Bool,
    ftableLines ⟨true, false, rl, 0, 8, 1, ' ', if ar then 4 else 0⟩ [] =
      [['┌', '─', '─', '┐'], ['│', ' ', ' ', '│'], ['└', '━', '━', '┘']] := by
  decide

/-- Claim C8 (code bug): `tabFlags.Set` looks up the whole `-flags` argument
`v` in the name table instead of each comma-split `name` (`ftable.go:41`), so
a list of two recognized names is rejected with an error quoting the first
name, while a single recognized name still parses to its bit; an unrecognized
single name is rejected as the claim says. -/
theorem C8_flags_eval :
    tabFlagsSet 0 "align-right,debug".toList =
      Except.error "unrecognized flag \"align-right\"".toList ∧
    tabFlagsSet 0 "align-right".toList = Except.ok 4 ∧
    tabFlagsSet 0 "debug".toList = Except.ok 32 ∧
    tabFlagsSet 0 "nope".toList = Except.error "unrecognized flag \"nope\"".toList := by
  refine ⟨?_, ?_, ?_, ?_⟩ <;> rfl

/-- Claim C3, counterexample: with `-box -padchar .` on input `a\tb\n`, the
first data row is `│ a.│ b │`; its visible interior (the code points strictly
between the two edge `│`) has `7 = renderWidth + 1` code points, not
`renderWidth = 6`, and the right padding added to it is the space character,
not the configured pad character `'.'`. -/
theorem C3_cex :
    (ftableLines ⟨true, false, false, 0, 8, 1, '.', 0⟩ "a\tb\n".toList).get? 1 =
      some ['│', ' ', 'a', '.', '│', ' ', 'b', ' ', '│'] ∧
    renderWidth (alignedLines ⟨true, false, false, 0, 8, 1, '.', 0⟩ "a\tb\n".toList) = 6 ∧
    ¬ (['│', ' ', 'a', '.', '│', ' ', 'b', ' ', '│'] : List Char).length = 6 + 2 := by
  refine ⟨by decide, by decide, by decide⟩

/-- Claim C3, amended: in box mode every data line (the emitted lines whose
first code point is `│`) consists of the edge glyph, one fixed space, the
glyph-substituted row right-padded with the space character (not the
configured pad character) up to Render Width, and the closing edge glyph;
hence its visible interior has Render Width + 1 code points. -/
theorem C3_amended (hd rl : Bool) (ls : List (List Char)) (l : List Char)
    (hl : l ∈ renderBox hd rl ls) (hhead : l.head? = some '│') :
    ∃ b : List Char, l = '│' :: ' ' :: (b ++ List.replicate (renderWidth ls - b.length) ' ') ++ ['│'] ∧
      b.length < renderWidth ls ∧ l.length - 2 = renderWidth ls + 1 := by
  rcases mem_renderBox hl with rfl | rfl | rfl | rfl | rfl | ⟨x, hx, rfl⟩ | ⟨x, hx, rfl⟩
  · exact absurd hhead (by simp [ruleLine])
  · exact absurd hhead (by simp [ruleLine])
  · exact absurd hhead (by simp [ruleLine])
  · exact absurd hhead (by simp [ruleLine])
  · exact absurd hhead (by simp [ruleLine])
  · exact absurd hhead (by simp [headerRow])
  · refine ⟨applySep (isSepCol ls) x '│' false, ?_, ?_, ?_⟩
    · have hlen : (applySep (isSepCol ls) x '│' false).length < renderWidth ls := by
        rw [applySep_length]
        exact Nat.lt_succ_of_le (length_le_maxLineLen hx)
      rw [dataRow, padTo_eq_append hlen]
    · rw [applySep_length]
      exact Nat.lt_succ_of_le (length_le_maxLineLen hx)
    · have hx' : x.length < renderWidth ls := Nat.lt_succ_of_le (length_le_maxLineLen hx)
      rw [dataRow_length hx']
      omega

/-- Witness for `C3_amended`: the single data row of a concrete boxed set. -/
theorem C3_amended_witness :
    ∃ b : List Char,
      (['│', ' ', 'a', ' ', '│'] : List Char) =
        '│' :: ' ' :: (b ++ List.replicate (renderWidth [['a']] - b.length) ' ') ++ ['│'] ∧
      b.length < renderWidth [['a']] ∧
      (['│', ' ', 'a', ' ', '│'] : List Char).length - 2 = renderWidth [['a']] + 1 :=
  C3_amended false false [['a']] ['│', ' ', 'a', ' ', '│'] (by decide) (by decide)

/-- Claim C5 (confirmed): with `-box -rowlines` and no header, the rendered
output is the top rule, then the data rows with the `├─...┼...┤` rule
interspersed between every consecutive pair — never before the first row or
after the last — and finally the separate bottom rule. -/
theorem C5_rowlines (first : List Char) (rest : List (List Char)) :
    renderBox false true (first :: rest) =
      ruleLine (isSepCol (first :: rest)) (renderWidth (first :: rest)) '┌' '─' '┬' '┐' ::
        (List.intersperse
            (ruleLine (isSepCol (first :: rest)) (renderWidth (first :: rest)) '├' '─' '┼' '┤')
            ((first :: rest).map
              (dataRow (isSepCol (first :: rest)) (renderWidth (first :: rest)))) ++
          [ruleLine (isSepCol (first :: rest)) (renderWidth (first :: rest)) '└' '━' '┴' '┘']) := by
  rw [← bodyRows_intersperse]
  rfl

/-- Claim C9 (confirmed): every line the boxed renderer emits — rules, header
line, and data rows — has exactly Render Width + 3 code points, so the box
edges line up vertically. -/
theorem C9_line_length (hd rl : Bool) (ls : List (List Char)) (l : List Char)
    (hl : l ∈ renderBox hd rl ls) : l.length = renderWidth ls + 3 := by
  rcases mem_renderBox hl with rfl | rfl | rfl | rfl | rfl | ⟨x, hx, rfl⟩ | ⟨x, hx, rfl⟩
  · exact ruleLine_length _ _ _ _ _ _
  · exact ruleLine_length _ _ _ _ _ _
  · exact ruleLine_length _ _ _ _ _ _
  · exact ruleLine_length _ _ _ _ _ _
  · exact ruleLine_length _ _ _ _ _ _
  · exact headerRow_length (Nat.lt_succ_of_le (length_le_maxLineLen hx))
  · exact dataRow_length (Nat.lt_succ_of_le (length_le_maxLineLen hx))

/-- Witness for `C9_line_length`: the top rule of a concrete boxed set. -/
theorem C9_line_length_witness :
    (['┌', '─', '─', '─', '┐'] : List Char).length = renderWidth [['a']] + 3 :=
  C9_line_length false false [['a']] ['┌', '─', '─', '─', '┐'] (by decide)

/-- Claim C10 (confirmed): a sentinel code point already present in an
aligned line — whatever its origin — makes its column a separator column, is
rendered as the `│` glyph in that data line, and forces a junction into every
rule at that column (shown for the bottom rule, whose rune `i + 2` covers
column `i`); nothing in the pipeline raises an error for it. -/
theorem C10_stray_sentinel (ls : List (List Char)) (l : List Char) (i : Nat)
    (hl : l ∈ ls) (hi : l.get? i = some termChar) :
    isSepCol ls i = true ∧
    (applySep (isSepCol ls) l '│' false).get? i = some '│' ∧
    (ruleLine (isSepCol ls) (renderWidth ls) '└' '━' '┴' '┘').get? (i + 2) = some '┴' := by
  have hi' : l[i]? = some termChar := by
    rw [← List.get?_eq_getElem?]
    exact hi
  have hsep : isSepCol ls i = true := by
    rw [isSepCol, List.any_eq_true]
    exact ⟨l, hl, by simp [hi']⟩
  have hilen : i < l.length := by
    rcases List.get?_eq_some.mp hi with ⟨h, _⟩
    exact h
  have him : i < renderWidth ls :=
    Nat.lt_succ_of_le (le_trans (Nat.le_of_lt hilen) (length_le_maxLineLen hl))
  refine ⟨hsep, ?_, ?_⟩
  · rw [applySep_get?, hi]
    simp [hsep]
  · show (('└' : Char) :: '━' ::
        (applySep (isSepCol ls) (List.replicate (renderWidth ls) '━') '┴' true ++ ['┘'])).get? (i + 2) =
      some '┴'
    rw [show i + 2 = (i + 1) + 1 from rfl, List.get?_cons_succ, List.get?_cons_succ]
    rw [List.get?_eq_getElem?, List.getElem?_append_left
      (by rw [applySep_length, List.length_replicate]; exact him)]
    rw [← List.get?_eq_getElem?, applySep_get?]
    rw [List.get?_eq_getElem?, List.getElem?_replicate, if_pos him]
    simp [hsep]

/-- Witness for `C10_stray_sentinel` on a one-line set whose only rune is the
sentinel. -/
theorem C10_stray_sentinel_witness :
    isSepCol [[termChar]] 0 = true ∧
    (applySep (isSepCol [[termChar]]) [termChar] '│' false).get? 0 = some '│' ∧
    (ruleLine (isSepCol [[termChar]]) (renderWidth [[termChar]]) '└' '━' '┴' '┘').get? (0 + 2) =
      some '┴' :=
  C10_stray_sentinel [[termChar]] [termChar] 0 (by decide) (by decide)

/-- Claim C2, counterexample: on input `a\tb\n\nxxx\ty\n` (default boxed
configuration) the separator column set has two columns (the empty middle
line splits the alignment into two column blocks, so the sentinels of the two
rows land at different columns), while the line with the most fields has one
field separator. -/
theorem C2_cex :
    sepCount (alignedLines ⟨true, false, false, 0, 8, 1, ' ', 0⟩ "a\tb\n\nxxx\ty\n".toList) = 2 ∧
    maxTabs "a\tb\n\nxxx\ty\n".toList = 1 ∧ ¬ (2 = 1) := by
  refine ⟨by decide, by decide, by decide⟩

/-- Claim C2, amended: for every boxed run whose input contains no formfeed
byte and whose pad character is not a newline, the separator column set is a
single global set shared across all lines — column `i` is in it exactly when
some aligned line carries the sentinel at rune index `i` — and its size is at
least the number of field separators (tabs) in the input line with the most
fields; it can exceed that number when the alignment engine lays lines out in
separate column blocks. (A formfeed flushes the aligner mid-stream and a
newline pad splits aligned lines, either of which can break even the lower
bound; see the two evaluations after the witness.) -/
theorem C2_amended (cfg : Config) (input : List Char) (hpad : cfg.padchar ≠ '\n')
    (hff : '\x0c' ∉ input) :
    (∀ i, isSepCol (alignedLines cfg input) i = true ↔
        ∃ l ∈ alignedLines cfg input, l.get? i = some termChar) ∧
    maxTabs input ≤ sepCount (alignedLines cfg input) := by
  constructor
  · intro i
    simp [isSepCol, List.any_eq_true]
  · rcases hts : lineTabCounts input with _ | ⟨t, ts⟩
    · exact absurd hts (lineTabCounts_ne_nil input)
    have hff2 : '\x0c' ∉ injectSentinels cfg.flags input := by
      intro hmem
      rcases injectSentinels_chars cfg.flags input '\x0c' hmem with h | h | h | h
      · exact hff h
      · exact absurd h (by decide)
      · exact absurd h (by decide)
      · exact absurd h (by decide)
    have hAL : alignedLines cfg input =
        formatAux cfg.tw ((parseLines (injectSentinels cfg.flags input)).length +
          maxCells (parseLines (injectSentinels cfg.flags input)) + 1) []
          (parseLines (injectSentinels cfg.flags input)) := by
      rw [alignedLines]
      exact tabwrite_splitOn cfg.tw (injectSentinels cfg.flags input) hpad hff2
    have hB := parse_tabs_le cfg.flags input [] [] t ts hts
    have h0 : lineTerm ([] : List Cell) + List.count termChar ([] : List Char) + t = t := by
      simp [lineTerm]
    rw [h0] at hB
    have hC := formatAux_count cfg.tw
      ((parseLines (injectSentinels cfg.flags input)).length +
        maxCells (parseLines (injectSentinels cfg.flags input)) + 1) []
      (parseLines (injectSentinels cfg.flags input))
    have hD := forall2_le_count hB hC
    rw [maxTabs, hts]
    refine foldl_max_le _ 0 ?_ (Nat.zero_le _)
    intro x hx
    rcases forall2_mem_left hD hx with ⟨o, ho, hxo⟩
    have ho2 : o ∈ alignedLines cfg input := by
      rw [hAL]
      exact ho
    exact le_trans hxo (count_le_sepCount ho2)

/-- Witness for `C2_amended` on a concrete boxed run. -/
theorem C2_amended_witness :
    (∀ i, isSepCol (alignedLines ⟨true, false, false, 0, 8, 1, ' ', 0⟩ ['a', '\t', 'b']) i = true ↔
        ∃ l ∈ alignedLines ⟨true, false, false, 0, 8, 1, ' ', 0⟩ ['a', '\t', 'b'],
          l.get? i = some termChar) ∧
    maxTabs ['a', '\t', 'b'] ≤
      sepCount (alignedLines ⟨true, false, false, 0, 8, 1, ' ', 0⟩ ['a', '\t', 'b']) :=
  C2_amended ⟨true, false, false, 0, 8, 1, ' ', 0⟩ ['a', '\t', 'b'] (by decide) (by decide)

/-- The formfeed hypothesis of the amended C2 is necessary: a formfeed
flushes the aligner mid-stream, so both sections place their sentinel at the
same column and the set undercounts the tabs of the newline-delimited line. -/
theorem sepCount_lt_maxTabs_formfeed :
    sepCount (alignedLines ⟨true, false, false, 0, 8, 1, ' ', 0⟩
        "a\tb\x0cc\td\n".toList) = 1 ∧
    maxTabs "a\tb\x0cc\td\n".toList = 2 := by
  refine ⟨by decide, by decide⟩

/-- The pad-character hypothesis of the amended C2 is necessary: padding with
newlines splits each aligned row, moving all sentinels to column 0. -/
theorem sepCount_lt_maxTabs_pad_nl :
    sepCount (alignedLines ⟨true, false, false, 0, 8, 1, '\n', 0⟩
        "aa\tb\tc\nx\ty\tz\n".toList) = 1 ∧
    maxTabs "aa\tb\tc\nx\ty\tz\n".toList = 2 := by
  refine ⟨by decide, by decide⟩

/-- Claim C7 (confirmed): with `-box` unset — whatever `-header` and
`-rowlines` say — the program's stdout is exactly the alignment engine's
output on the unmodified input; every code point of that output comes from
the input, the pad character, a tab, a newline, or the engine's own `Debug`
marks `|` and `-`; in particular, if the input is free of the sentinel and the
pad character is not the sentinel, no sentinel marker appears in the output
(and no box-drawing glyph can appear unless it was in the input or chosen as
the pad character). -/
theorem C7_nonbox (cfg : Config) (input : List Char) (hbox : cfg.box = false) :
    ftable cfg input = tabwrite cfg.tw input ∧
    (∀ c ∈ ftable cfg input,
      c ∈ input ∨ c = cfg.padchar ∨ c = '\t' ∨ c = '\n' ∨ c = '|' ∨ c = '-') ∧
    (termChar ∉ input → cfg.padchar ≠ termChar → termChar ∉ ftable cfg input) := by
  have he : ftable cfg input = tabwrite cfg.tw input := by
    rw [ftable, hbox]
    simp
  have hchars : ∀ c ∈ ftable cfg input,
      c ∈ input ∨ c = cfg.padchar ∨ c = '\t' ∨ c = '\n' ∨ c = '|' ∨ c = '-' := by
    intro c hc
    rw [he] at hc
    exact tabwrite_chars cfg.tw input c hc
  refine ⟨he, hchars, ?_⟩
  intro hin hp hmem
  rcases hchars termChar hmem with h | h | h | h | h | h
  · exact hin h
  · exact hp h.symm
  · exact absurd h (by decide)
  · exact absurd h (by decide)
  · exact absurd h (by decide)
  · exact absurd h (by decide)

/-- Witness for `C7_nonbox` on a concrete non-box run, with the sentinel
conjunct's conditions discharged as well. -/
theorem C7_nonbox_witness :
    ftable ⟨false, true, true, 0, 8, 1, ' ', 0⟩ ['a', '\t', 'b'] =
      tabwrite (Config.tw ⟨false, true, true, 0, 8, 1, ' ', 0⟩) ['a', '\t', 'b'] ∧
    (∀ c ∈ ftable ⟨false, true, true, 0, 8, 1, ' ', 0⟩ ['a', '\t', 'b'],
      c ∈ ['a', '\t', 'b'] ∨ c = ' ' ∨ c = '\t' ∨ c = '\n' ∨ c = '|' ∨ c = '-') ∧
    termChar ∉ ftable ⟨false, true, true, 0, 8, 1, ' ', 0⟩ ['a', '\t', 'b'] :=
  ⟨(C7_nonbox ⟨false, true, true, 0, 8, 1, ' ', 0⟩ ['a', '\t', 'b'] rfl).1,
   (C7_nonbox ⟨false, true, true, 0, 8, 1, ' ', 0⟩ ['a', '\t', 'b'] rfl).2.1,
   (C7_nonbox ⟨false, true, true, 0, 8, 1, ' ', 0⟩ ['a', '\t', 'b'] rfl).2.2
     (by decide) (by decide)⟩

end Ftable
